import Mathlib

/-!
Verification of the olmOCR JSONL parser component
(`custom-langflow/components/olmocr_directory/olmocr_jsonl_parser.py`).

Python strings are modelled as `List Char`; Python `text[a:b]` slicing is
modelled with full Python semantics (negative indices count from the end,
out-of-range indices are clamped).  Machine integers coming from JSON or
from the component's integer inputs are modelled as `Int`.  The `while`
loop of `_chunk_by_fixed_size` is modelled with explicit fuel, returning
`none` when the fuel runs out (in particular, a run that returns `none`
for every fuel models a non-terminating loop).
-/

namespace OlmOCR

/-- Python string, as a list of characters. -/
abbrev PyStr := List Char

/-- Characters stripped by Python `str.strip()` (ASCII whitespace model). -/
def isPySpace (c : Char) : Bool :=
  c = ' ' || c = '\t' || c = '\n' || c = '\r' || c = '\x0b' || c = '\x0c'

/-- Python `str.strip()`: drop leading and trailing whitespace. -/
def pyStrip (s : PyStr) : PyStr :=
  ((s.dropWhile isPySpace).reverse.dropWhile isPySpace).reverse

/-- Python slice `s[a:b]` (step 1): negative indices count from the end,
then both indices are clamped to `[0, len]`. -/
def pySlice (s : List Char) (a b : Int) : List Char :=
  let n := s.length
  let lo := if a < 0 then ((n : Int) + a).toNat else min a.toNat n
  let hi := if b < 0 then ((n : Int) + b).toNat else min b.toNat n
  (s.take hi).drop lo

/-- Python `text.split("\n\n")`: split on the leftmost, non-overlapping
occurrences of two consecutive newline characters. -/
def splitNN : List Char → List (List Char)
  | [] => [[]]
  | [c] => [[c]]
  | c :: c2 :: rest =>
    if c = '\n' ∧ c2 = '\n' then [] :: splitNN rest
    else
      match splitNN (c2 :: rest) with
      | [] => [[c]]
      | p :: ps => (c :: p) :: ps

/-- Whether the text contains two consecutive newline characters
(a blank-line boundary). -/
def hasNN : List Char → Bool
  | [] => false
  | [_] => false
  | c :: c2 :: rest => (c = '\n' && c2 = '\n') || hasNN (c2 :: rest)

/-- Python `s.split(",")`. -/
def splitComma : List Char → List (List Char)
  | [] => [[]]
  | c :: rest =>
    if c = ',' then [] :: splitComma rest
    else
      match splitComma rest with
      | [] => [[c]]
      | p :: ps => (c :: p) :: ps

/-- `_parse_language_filter`: empty/blank filter means no filtering,
otherwise split on commas, strip each entry, lowercase it, and drop
blank entries. -/
def parseLanguageFilter (s : PyStr) : List PyStr :=
  if pyStrip s = [] then []
  else (splitComma s).filterMap fun l =>
    let t := pyStrip l
    if t = [] then none else some (t.map Char.toLower)

/-- The `metadata` object of one JSONL document (fields the parser reads,
with the `dict.get` defaults already applied). -/
structure Metadata where
  source_file : PyStr
  total_pages : Int
  olmocr_version : PyStr
deriving DecidableEq

/-- The `attributes` object of one JSONL document: `pdf_page_numbers` is
the list of `(start, end, page_number)` triples, and the three per-page
parallel arrays. -/
structure Attributes where
  pdf_page_numbers : List (Int × Int × Int)
  primary_language : List PyStr
  is_table : List Bool
  is_diagram : List Bool
deriving DecidableEq

/-- One parsed JSONL document. -/
structure Document where
  text : List Char
  metadata : Metadata
  attributes : Attributes
deriving DecidableEq

/-- The component's configuration inputs. -/
structure Config where
  chunking_strategy : PyStr
  chunk_size : Int
  chunk_overlap : Int
  language_filter : PyStr
  include_tables : Bool
  include_diagrams : Bool
  min_chars_per_chunk : Int
  max_chunks : Int
  workspace_path : PyStr
deriving DecidableEq

/-- One emitted chunk (`Data` object).  `char_start`/`char_end` are absent
from semantic chunks and `paragraph_index` is absent from page and
fixed-size chunks, hence the `Option`s.  The `source_file` field keeps the
full path (the basename projection `Path(...).name` is not modelled), and
the per-chunk copies of `chunk_size`/`chunk_overlap` made by the
fixed-size strategy are omitted as pure copies of the configuration. -/
structure Chunk where
  source_file : PyStr
  page_number : Int
  total_pages : Int
  language : PyStr
  has_table : Bool
  has_diagram : Bool
  char_start : Option Int
  char_end : Option Int
  char_count : Int
  chunk_index : Nat
  paragraph_index : Option Nat
  chunking_strategy : PyStr
  olmocr_version : PyStr
  text : List Char
deriving DecidableEq, Inhabited

/-- Per-page metadata looked up for a page index `i`, with the source's
out-of-range defaults. -/
def pageLanguage (attrs : Attributes) (i : Nat) : PyStr :=
  attrs.primary_language.getD i "unknown".data

def pageIsTable (attrs : Attributes) (i : Nat) : Bool :=
  attrs.is_table.getD i false

def pageIsDiagram (attrs : Attributes) (i : Nat) : Bool :=
  attrs.is_diagram.getD i false

/-- `_chunk_by_page`, main loop: `i` is the enumeration index, `acc` the
chunks accumulated so far (the source appends to a `chunks` list and uses
`len(chunks)` as the next `chunk_index`). -/
def chunkByPageGo (cfg : Config) (text : List Char) (md : Metadata) (attrs : Attributes) :
    Nat → List (Int × Int × Int) → List Chunk → List Chunk
  | _, [], acc => acc
  | i, (s, e, pnum) :: rest, acc =>
    let filters := parseLanguageFilter cfg.language_filter
    let lang := pageLanguage attrs i
    let tab := pageIsTable attrs i
    let dia := pageIsDiagram attrs i
    if filters ≠ [] ∧ lang ∉ filters then
      chunkByPageGo cfg text md attrs (i + 1) rest acc
    else if cfg.include_tables = false ∧ tab = true then
      chunkByPageGo cfg text md attrs (i + 1) rest acc
    else if cfg.include_diagrams = false ∧ dia = true then
      chunkByPageGo cfg text md attrs (i + 1) rest acc
    else
      let ptext := pySlice text s e
      if (ptext.length : Int) < cfg.min_chars_per_chunk then
        chunkByPageGo cfg text md attrs (i + 1) rest acc
      else
        chunkByPageGo cfg text md attrs (i + 1) rest (acc ++ [{
          source_file := md.source_file
          page_number := pnum
          total_pages := md.total_pages
          language := lang
          has_table := tab
          has_diagram := dia
          char_start := some s
          char_end := some e
          char_count := e - s
          chunk_index := acc.length
          paragraph_index := none
          chunking_strategy := "page".data
          olmocr_version := md.olmocr_version
          text := ptext }])

/-- `_chunk_by_page`. -/
def chunkByPage (cfg : Config) (text : List Char) (bs : List (Int × Int × Int))
    (md : Metadata) (attrs : Attributes) : List Chunk :=
  chunkByPageGo cfg text md attrs 0 bs []

/-- `_chunk_semantic`, lines 318-322: paragraph candidates of one page,
`[p.strip() for p in page_text.split("\n\n") if p.strip()]`, falling back
to the raw page text when the list is empty. -/
def semanticParagraphs (ptext : List Char) : List (List Char) :=
  let ps := (splitNN ptext).filterMap fun p =>
    let t := pyStrip p
    if t = [] then none else some t
  if ps = [] then [ptext] else ps

/-- `_chunk_semantic`, inner loop over `enumerate(paragraphs)` of one page:
`pidx` is the paragraph index within the page, `acc` the chunks
accumulated so far across the whole call (the next `chunk_index` is
`len(chunks)`). -/
def chunkSemanticParas (cfg : Config) (md : Metadata) (lang : PyStr) (tab dia : Bool)
    (pnum : Int) : Nat → List (List Char) → List Chunk → List Chunk
  | _, [], acc => acc
  | pidx, p :: ps, acc =>
    if (p.length : Int) < cfg.min_chars_per_chunk then
      chunkSemanticParas cfg md lang tab dia pnum (pidx + 1) ps acc
    else
      chunkSemanticParas cfg md lang tab dia pnum (pidx + 1) ps (acc ++ [{
        source_file := md.source_file
        page_number := pnum
        total_pages := md.total_pages
        language := lang
        has_table := tab
        has_diagram := dia
        char_start := none
        char_end := none
        char_count := (p.length : Int)
        chunk_index := acc.length
        paragraph_index := some pidx
        chunking_strategy := "semantic".data
        olmocr_version := md.olmocr_version
        text := p }])

/-- `_chunk_semantic`, outer loop over the enumerated page boundaries. -/
def chunkSemanticGo (cfg : Config) (text : List Char) (md : Metadata) (attrs : Attributes) :
    Nat → List (Int × Int × Int) → List Chunk → List Chunk
  | _, [], acc => acc
  | i, (s, e, pnum) :: rest, acc =>
    let filters := parseLanguageFilter cfg.language_filter
    let lang := pageLanguage attrs i
    let tab := pageIsTable attrs i
    let dia := pageIsDiagram attrs i
    if filters ≠ [] ∧ lang ∉ filters then
      chunkSemanticGo cfg text md attrs (i + 1) rest acc
    else if cfg.include_tables = false ∧ tab = true then
      chunkSemanticGo cfg text md attrs (i + 1) rest acc
    else if cfg.include_diagrams = false ∧ dia = true then
      chunkSemanticGo cfg text md attrs (i + 1) rest acc
    else
      let ptext := pySlice text s e
      chunkSemanticGo cfg text md attrs (i + 1) rest
        (chunkSemanticParas cfg md lang tab dia pnum 0 (semanticParagraphs ptext) acc)

/-- `_chunk_semantic`. -/
def chunkSemantic (cfg : Config) (text : List Char) (bs : List (Int × Int × Int))
    (md : Metadata) (attrs : Attributes) : List Chunk :=
  chunkSemanticGo cfg text md attrs 0 bs []

/-- The per-window metadata record of `_chunk_by_fixed_size`. -/
structure PageMeta where
  page_num : Int
  language : PyStr
  has_table : Bool
  has_diagram : Bool
deriving DecidableEq

/-- The `char_to_page` dictionary of `_chunk_by_fixed_size` as a lookup
function: the dictionary is built by iterating the boundaries in order and
writing every position of `range(start, end)`, so for a position covered
by several boundaries the last boundary in list order wins. -/
def charToPageGo (attrs : Attributes) : Nat → List (Int × Int × Int) → Int → Option PageMeta
  | _, [], _ => none
  | i, (s, e, pnum) :: rest, pos =>
    match charToPageGo attrs (i + 1) rest pos with
    | some m => some m
    | none =>
      if s ≤ pos ∧ pos < e then
        some ⟨pnum, pageLanguage attrs i, pageIsTable attrs i, pageIsDiagram attrs i⟩
      else none

def charToPage (bs : List (Int × Int × Int)) (attrs : Attributes) (pos : Int) :
    Option PageMeta :=
  charToPageGo attrs 0 bs pos

/-- `char_to_page.get(pos, {...defaults...})`. -/
def windowMeta (bs : List (Int × Int × Int)) (attrs : Attributes) (pos : Int) : PageMeta :=
  (charToPage bs attrs pos).getD ⟨0, "unknown".data, false, false⟩

/-- The `while pos < len(text)` loop of `_chunk_by_fixed_size`, with
explicit fuel: `none` means the fuel ran out, so a run that is `none` for
every fuel models a loop that never terminates.  `ci` is the running
`chunk_index` counter, `acc` the accumulated chunks. -/
def fixedGo (cfg : Config) (text : List Char) (bs : List (Int × Int × Int))
    (md : Metadata) (attrs : Attributes) :
    Nat → Int → Nat → List Chunk → Option (List Chunk)
  | 0, _, _, _ => none
  | fuel + 1, pos, ci, acc =>
    if pos < (text.length : Int) then
      let step := cfg.chunk_size - cfg.chunk_overlap
      let cend := min (pos + cfg.chunk_size) (text.length : Int)
      let ctext := pySlice text pos cend
      let meta := windowMeta bs attrs pos
      let filters := parseLanguageFilter cfg.language_filter
      if filters ≠ [] ∧ meta.language ∉ filters then
        fixedGo cfg text bs md attrs fuel (pos + step) ci acc
      else if cfg.include_tables = false ∧ meta.has_table = true then
        fixedGo cfg text bs md attrs fuel (pos + step) ci acc
      else if cfg.include_diagrams = false ∧ meta.has_diagram = true then
        fixedGo cfg text bs md attrs fuel (pos + step) ci acc
      else if (ctext.length : Int) < cfg.min_chars_per_chunk then
        fixedGo cfg text bs md attrs fuel (pos + step) ci acc
      else
        fixedGo cfg text bs md attrs fuel (pos + step) (ci + 1) (acc ++ [{
          source_file := md.source_file
          page_number := meta.page_num
          total_pages := md.total_pages
          language := meta.language
          has_table := meta.has_table
          has_diagram := meta.has_diagram
          char_start := some pos
          char_end := some cend
          char_count := (ctext.length : Int)
          chunk_index := ci
          paragraph_index := none
          chunking_strategy := "fixed_size".data
          olmocr_version := md.olmocr_version
          text := ctext }])
    else some acc

/-- `_chunk_by_fixed_size`: when the step `chunk_size - chunk_overlap` is
at least 1 the loop makes at most `len(text)` iterations, so fuel
`len(text) + 1` over-approximates every terminating run; a `none` result
models the non-terminating runs. -/
def chunkByFixedSize (cfg : Config) (text : List Char) (bs : List (Int × Int × Int))
    (md : Metadata) (attrs : Attributes) : Option (List Chunk) :=
  fixedGo cfg text bs md attrs (text.length + 1) 0 0 []

/-- Strategy dispatch of `parse_jsonl` (lines 412-419): unknown strategies
fall back to the page strategy. -/
def chunkDoc (cfg : Config) (d : Document) : Option (List Chunk) :=
  let bs := d.attributes.pdf_page_numbers
  if cfg.chunking_strategy = "page".data then
    some (chunkByPage cfg d.text bs d.metadata d.attributes)
  else if cfg.chunking_strategy = "fixed_size".data then
    chunkByFixedSize cfg d.text bs d.metadata d.attributes
  else if cfg.chunking_strategy = "semantic".data then
    some (chunkSemantic cfg d.text bs d.metadata d.attributes)
  else
    some (chunkByPage cfg d.text bs d.metadata d.attributes)

/-- One line of a JSONL file, as the parser sees it: blank (skipped),
malformed (raises `json.JSONDecodeError`), or a parsed document. -/
inductive Line where
  | blank
  | malformed
  | doc (d : Document)
deriving DecidableEq

/-- Processing of one JSONL file (the `try` body at lines 393-425 together
with the per-file `except` handlers): lines are processed in order; a
blank line is skipped; a document with empty text or no page boundaries is
skipped; a malformed line raises, which is caught at the file level, so
the chunks and document count accumulated so far are kept and the rest of
the file is abandoned.  Returns `(chunks, documents processed)`; `none`
models a chunking run that never terminates. -/
def processFile (cfg : Config) : List Line → Option (List Chunk × Nat)
  | [] => some ([], 0)
  | .blank :: rest => processFile cfg rest
  | .malformed :: _ => some ([], 0)
  | .doc d :: rest =>
    if d.text = [] ∨ d.attributes.pdf_page_numbers = [] then processFile cfg rest
    else
      match chunkDoc cfg d with
      | none => none
      | some cs =>
        match processFile cfg rest with
        | none => none
        | some (cs2, n) => some (cs ++ cs2, n + 1)

/-- The loop over `jsonl_files`: concatenate chunks and sum the processed
document counts. -/
def processFiles (cfg : Config) : List (List Line) → Option (List Chunk × Nat)
  | [] => some ([], 0)
  | f :: fs =>
    match processFile cfg f with
    | none => none
    | some (cs, n) =>
      match processFiles cfg fs with
      | none => none
      | some (cs2, n2) => some (cs ++ cs2, n + n2)

/-- The statistics dictionary stored in `self._stats`. -/
structure Stats where
  total_chunks : Nat
  documents_processed : Nat
  jsonl_files : Nat
  chunking_strategy : PyStr
  workspace_path : PyStr
deriving DecidableEq

/-- The component's mutable fields touched by `parse_jsonl`. -/
structure ParserState where
  chunks : Option (List Chunk)
  stats : Option Stats
  status : List Chunk
deriving DecidableEq

/-- The state of a freshly constructed component. -/
def initState : ParserState := ⟨none, none, []⟩

/-- `parse_jsonl`.  The filesystem is abstracted: `none` stands for a
missing workspace or missing `results` directory (both early-return with
`status = []` and no statistics), `some files` for the list of JSONL
files found, each a list of lines; an empty file list early-returns the
same way.  The resolved workspace path stored in the statistics is
abstracted to the configured path string. -/
def parseJsonl (cfg : Config) (st : ParserState) (input : Option (List (List Line))) :
    Option (ParserState × List Chunk) :=
  if pyStrip cfg.workspace_path = [] then some ({ st with status := [] }, [])
  else
    match input with
    | none => some ({ st with status := [] }, [])
    | some files =>
      if files = [] then some ({ st with status := [] }, [])
      else
        match processFiles cfg files with
        | none => none
        | some (allChunks, docs) =>
          let kept := if cfg.max_chunks > 0 ∧ (allChunks.length : Int) > cfg.max_chunks
            then allChunks.take cfg.max_chunks.toNat else allChunks
          let stats : Stats := {
            total_chunks := kept.length
            documents_processed := docs
            jsonl_files := files.length
            chunking_strategy := cfg.chunking_strategy
            workspace_path := cfg.workspace_path }
          some ({ chunks := some kept, stats := some stats, status := kept }, kept)

/-! Shared concrete fixtures used by witnesses and counterexamples. -/

/-- A two-page example metadata record. -/
def mdX : Metadata := ⟨"f.pdf".data, 2, "v1".data⟩

/-- Two pages of two characters each, both English, no tables or diagrams. -/
def attrsX : Attributes :=
  ⟨[(0, 2, 1), (2, 4, 2)], ["en".data, "en".data], [false, false], [false, false]⟩

/-- A four-character document with two pages. -/
def docX : Document := ⟨"aabb".data, mdX, attrsX⟩

/-- Page-strategy configuration with no filters and a floor of 1. -/
def cfgPage : Config := ⟨"page".data, 1000, 200, [], true, true, 1, 0, "w".data⟩

/-! General helper lemmas. -/

/-- Length of a well-bounded Python slice. -/
theorem pySlice_length (s : List Char) (a b : Int) (h0 : 0 ≤ a) (hab : a ≤ b)
    (hb : b ≤ (s.length : Int)) : ((pySlice s a b).length : Int) = b - a := by
  simp only [pySlice, if_neg (by omega : ¬a < 0), if_neg (by omega : ¬b < 0),
    List.length_drop, List.length_take]
  omega

/-- Splitting a text with no blank-line boundary returns the whole text. -/
theorem splitNN_of_not_hasNN : ∀ l : List Char, hasNN l = false → splitNN l = [l] := by
  intro l
  induction l with
  | nil => intro _; rfl
  | cons c rest ih =>
    intro h
    cases rest with
    | nil => rfl
    | cons c2 rest2 =>
      simp only [hasNN, Bool.or_eq_false_iff, Bool.and_eq_false_iff] at h
      have hcc : ¬(c = '\n' ∧ c2 = '\n') := by
        rcases h.1 with h1 | h1 <;> simp only [decide_eq_false_iff_not] at h1 <;> tauto
      simp only [splitNN, if_neg hcc, ih h.2]

/-! Claim C1.  The source has no `ConfigurationError` and performs no
validation of `chunk_overlap` against `chunk_size`: when
`chunk_overlap >= chunk_size` the step `chunk_size - chunk_overlap` is
non-positive, every branch of the `while` loop re-runs with a position
that never moves past 0, and the loop never terminates. -/

/-- C1: with `chunk_overlap >= chunk_size` and a non-empty text, the
fixed-size loop of `_chunk_by_fixed_size` never terminates — for every
amount of fuel, every run started at a non-positive position runs out of
fuel.  In particular no `ConfigurationError` is raised (none exists in
the code) and the call never returns. -/
theorem c1_overlap_ge_size_loops_forever (cfg : Config) (text : List Char)
    (bs : List (Int × Int × Int)) (md : Metadata) (attrs : Attributes)
    (hov : cfg.chunk_size ≤ cfg.chunk_overlap) (ht : text ≠ []) :
    ∀ (fuel : Nat) (pos : Int) (ci : Nat) (acc : List Chunk), pos ≤ 0 →
      fixedGo cfg text bs md attrs fuel pos ci acc = none := by
  intro fuel
  induction fuel with
  | zero => intro pos ci acc _; rfl
  | succ n ih =>
    intro pos ci acc hpos
    have hlen : 0 < text.length := List.length_pos.mpr ht
    have hlt : pos < (text.length : Int) := by omega
    have hnext : pos + (cfg.chunk_size - cfg.chunk_overlap) ≤ 0 := by omega
    simp only [fixedGo, if_pos hlt]
    split_ifs <;> exact ih _ _ _ hnext

/-- C1 witness: a concrete run with `chunk_size = chunk_overlap = 1000`
on a short text exhausts any concrete fuel without producing a result. -/
theorem c1_witness :
    fixedGo ⟨"fixed_size".data, 1000, 1000, [], true, true, 50, 0, "w".data⟩
      "aabb".data [(0, 4, 1)] mdX attrsX 9 0 0 [] = none :=
  c1_overlap_ge_size_loops_forever _ _ _ _ _ (by decide) (by decide) 9 0 0 [] (by decide)

/-! Claim C2.  The `except json.JSONDecodeError` handler of `parse_jsonl`
sits outside the per-line loop, at the per-file level: a malformed line
aborts the remaining lines of its own file (the lines already processed
keep their chunks), and only the other files of the batch continue. -/

/-- C2 counterexample: `docX` alone yields two chunks, and inserting only
a blank line between two copies yields four, but with a malformed middle
line the file yields just the first document's two chunks — the valid
line after the malformed one contributes nothing, contradicting the claim
that every valid line still contributes its chunks. -/
theorem c2_counterexample :
    (parseJsonl cfgPage initState (some [[.doc docX]])).map (fun r => r.2.length) =
      some 2 ∧
    (parseJsonl cfgPage initState
      (some [[.doc docX, .blank, .doc docX]])).map (fun r => r.2.length) = some 4 ∧
    (parseJsonl cfgPage initState
      (some [[.doc docX, .malformed, .doc docX]])).map (fun r => r.2.length) = some 2 := by
  decide

/-- C2 amended: a malformed line is recovered at the file level, not the
line level — the file's lines before the first malformed line keep their
chunks and document count, the lines after it are abandoned, and a file
consisting of a malformed line leaves the rest of the batch untouched. -/
theorem c2_malformed_aborts_rest_of_file (cfg : Config) (pre post : List Line)
    (hpre : Line.malformed ∉ pre) :
    processFile cfg (pre ++ Line.malformed :: post) = processFile cfg pre ∧
    ∀ fs : List (List Line),
      processFiles cfg ([Line.malformed] :: fs) = processFiles cfg fs := by
  constructor
  · induction pre with
    | nil => rfl
    | cons l rest ih =>
      have hl : l ≠ Line.malformed := fun h => hpre (h ▸ List.mem_cons_self l rest)
      have hrest : Line.malformed ∉ rest := fun h => hpre (List.mem_cons_of_mem l h)
      cases l with
      | blank => simpa only [List.cons_append, processFile] using ih hrest
      | malformed => exact absurd rfl hl
      | doc d => simp only [List.cons_append, processFile, List.append_eq, ih hrest]
  · intro fs
    simp only [processFiles, processFile]
    cases processFiles cfg fs with
    | none => rfl
    | some r => simp

/-- C2 witness: the amended theorem at a concrete file and a concrete
batch. -/
theorem c2_witness :
    processFile cfgPage ([Line.doc docX] ++ Line.malformed :: [Line.doc docX]) =
      processFile cfgPage [Line.doc docX] ∧
    processFiles cfgPage ([Line.malformed] :: [[Line.doc docX]]) =
      processFiles cfgPage [[Line.doc docX]] :=
  ⟨(c2_malformed_aborts_rest_of_file cfgPage [Line.doc docX] [Line.doc docX]
      (by decide)).1,
   (c2_malformed_aborts_rest_of_file cfgPage [Line.doc docX] [Line.doc docX]
      (by decide)).2 [[Line.doc docX]]⟩

/-! Claim C3.  Every emitted chunk stores its own text length as
`char_count` and clears the `min_chars_per_chunk` floor.  For the page
strategy `char_count` is computed as `end - start`, which equals the
length of the extracted slice because a Document's page boundaries are
in-range offsets into its text (the data-model invariant). -/

theorem chunkByPageGo_char_count (cfg : Config) (text : List Char) (md : Metadata)
    (attrs : Attributes) :
    ∀ (bs : List (Int × Int × Int)) (i : Nat) (acc : List Chunk),
      (∀ t ∈ bs, 0 ≤ t.1 ∧ t.1 ≤ t.2.1 ∧ t.2.1 ≤ (text.length : Int)) →
      (∀ c ∈ acc, c.char_count = (c.text.length : Int) ∧
        cfg.min_chars_per_chunk ≤ c.char_count) →
      ∀ c ∈ chunkByPageGo cfg text md attrs i bs acc,
        c.char_count = (c.text.length : Int) ∧ cfg.min_chars_per_chunk ≤ c.char_count := by
  intro bs
  induction bs with
  | nil => intro i acc _ hacc; simpa only [chunkByPageGo] using hacc
  | cons hd rest ih =>
    obtain ⟨s, e, pnum⟩ := hd
    intro i acc hwf hacc c hc
    have hwf_rest : ∀ t ∈ rest, 0 ≤ t.1 ∧ t.1 ≤ t.2.1 ∧ t.2.1 ≤ (text.length : Int) :=
      fun t ht => hwf t (List.mem_cons_of_mem _ ht)
    have hhd := hwf (s, e, pnum) (List.mem_cons_self _ _)
    have hlen : ((pySlice text s e).length : Int) = e - s :=
      pySlice_length text s e hhd.1 hhd.2.1 hhd.2.2
    simp only [chunkByPageGo] at hc
    split at hc
    · exact ih _ _ hwf_rest hacc c hc
    · split at hc
      · exact ih _ _ hwf_rest hacc c hc
      · split at hc
        · exact ih _ _ hwf_rest hacc c hc
        · split at hc
          · exact ih _ _ hwf_rest hacc c hc
          · rename_i hmin
            refine ih _ _ hwf_rest ?_ c hc
            intro c2 hc2
            rcases List.mem_append.mp hc2 with h | h
            · exact hacc c2 h
            · rcases List.mem_singleton.mp h with rfl
              exact ⟨hlen.symm, by dsimp only; omega⟩

theorem chunkSemanticParas_char_count (cfg : Config) (md : Metadata) (lang : PyStr)
    (tab dia : Bool) (pnum : Int) :
    ∀ (ps : List (List Char)) (pidx : Nat) (acc : List Chunk),
      (∀ c ∈ acc, c.char_count = (c.text.length : Int) ∧
        cfg.min_chars_per_chunk ≤ c.char_count) →
      ∀ c ∈ chunkSemanticParas cfg md lang tab dia pnum pidx ps acc,
        c.char_count = (c.text.length : Int) ∧ cfg.min_chars_per_chunk ≤ c.char_count := by
  intro ps
  induction ps with
  | nil => intro pidx acc hacc; simpa only [chunkSemanticParas] using hacc
  | cons p ps ih =>
    intro pidx acc hacc c hc
    simp only [chunkSemanticParas] at hc
    split at hc
    · exact ih _ _ hacc c hc
    · rename_i hmin
      refine ih _ _ ?_ c hc
      intro c2 hc2
      rcases List.mem_append.mp hc2 with h | h
      · exact hacc c2 h
      · rcases List.mem_singleton.mp h with rfl
        exact ⟨rfl, by dsimp only; omega⟩

theorem chunkSemanticGo_char_count (cfg : Config) (text : List Char) (md : Metadata)
    (attrs : Attributes) :
    ∀ (bs : List (Int × Int × Int)) (i : Nat) (acc : List Chunk),
      (∀ c ∈ acc, c.char_count = (c.text.length : Int) ∧
        cfg.min_chars_per_chunk ≤ c.char_count) →
      ∀ c ∈ chunkSemanticGo cfg text md attrs i bs acc,
        c.char_count = (c.text.length : Int) ∧ cfg.min_chars_per_chunk ≤ c.char_count := by
  intro bs
  induction bs with
  | nil => intro i acc hacc; simpa only [chunkSemanticGo] using hacc
  | cons hd rest ih =>
    obtain ⟨s, e, pnum⟩ := hd
    intro i acc hacc c hc
    simp only [chunkSemanticGo] at hc
    split at hc
    · exact ih _ _ hacc c hc
    · split at hc
      · exact ih _ _ hacc c hc
      · split at hc
        · exact ih _ _ hacc c hc
        · exact ih _ _ (chunkSemanticParas_char_count cfg md _ _ _ _ _ _ _ hacc) c hc

theorem fixedGo_char_count (cfg : Config) (text : List Char)
    (bs : List (Int × Int × Int)) (md : Metadata) (attrs : Attributes) :
    ∀ (fuel : Nat) (pos : Int) (ci : Nat) (acc cs : List Chunk),
      (∀ c ∈ acc, c.char_count = (c.text.length : Int) ∧
        cfg.min_chars_per_chunk ≤ c.char_count) →
      fixedGo cfg text bs md attrs fuel pos ci acc = some cs →
      ∀ c ∈ cs,
        c.char_count = (c.text.length : Int) ∧ cfg.min_chars_per_chunk ≤ c.char_count := by
  intro fuel
  induction fuel with
  | zero => intro pos ci acc cs _ h; exact absurd h (by simp [fixedGo])
  | succ n ih =>
    intro pos ci acc cs hacc hrun c hc
    simp only [fixedGo] at hrun
    split at hrun
    · split at hrun
      · exact ih _ _ _ _ hacc hrun c hc
      · split at hrun
        · exact ih _ _ _ _ hacc hrun c hc
        · split at hrun
          · exact ih _ _ _ _ hacc hrun c hc
          · split at hrun
            · exact ih _ _ _ _ hacc hrun c hc
            · rename_i hmin
              refine ih _ _ _ _ ?_ hrun c hc
              intro c2 hc2
              rcases List.mem_append.mp hc2 with h | h
              · exact hacc c2 h
              · rcases List.mem_singleton.mp h with rfl
                exact ⟨rfl, by dsimp only; omega⟩
    · rcases Option.some_injective _ hrun with rfl
      exact hacc c hc

/-- C3: for every document whose page boundaries are in-range offsets
into its text (the Document data-model invariant), every configuration
and every chunking strategy, each emitted chunk's `char_count` equals the
length of its text and is at least `min_chars_per_chunk`. -/
theorem c3_char_count_invariant (cfg : Config) (d : Document) (cs : List Chunk)
    (hwf : ∀ t ∈ d.attributes.pdf_page_numbers,
      0 ≤ t.1 ∧ t.1 ≤ t.2.1 ∧ t.2.1 ≤ (d.text.length : Int))
    (h : chunkDoc cfg d = some cs) :
    ∀ c ∈ cs,
      c.char_count = (c.text.length : Int) ∧ cfg.min_chars_per_chunk ≤ c.char_count := by
  unfold chunkDoc at h
  split_ifs at h
  · rcases Option.some_injective _ h with rfl
    exact chunkByPageGo_char_count cfg d.text d.metadata d.attributes _ 0 [] hwf
      (by intro c hc; cases hc)
  · exact fixedGo_char_count cfg d.text _ d.metadata d.attributes _ 0 0 [] cs
      (by intro c hc; cases hc) h
  · rcases Option.some_injective _ h with rfl
    exact chunkSemanticGo_char_count cfg d.text d.metadata d.attributes _ 0 []
      (by intro c hc; cases hc)
  · rcases Option.some_injective _ h with rfl
    exact chunkByPageGo_char_count cfg d.text d.metadata d.attributes _ 0 [] hwf
      (by intro c hc; cases hc)

/-- C3 witness: the invariant evaluated on the first chunk of the
concrete two-page document. -/
theorem c3_witness :
    ((chunkByPage cfgPage docX.text docX.attributes.pdf_page_numbers
        docX.metadata docX.attributes).headI).char_count =
      (((chunkByPage cfgPage docX.text docX.attributes.pdf_page_numbers
        docX.metadata docX.attributes).headI).text.length : Int) ∧
    cfgPage.min_chars_per_chunk ≤
      ((chunkByPage cfgPage docX.text docX.attributes.pdf_page_numbers
        docX.metadata docX.attributes).headI).char_count :=
  c3_char_count_invariant cfgPage docX
    (chunkByPage cfgPage docX.text docX.attributes.pdf_page_numbers
      docX.metadata docX.attributes)
    (by decide) (by decide) _ (by decide)

/-! Claim C4.  Each strategy numbers its chunks from `len(chunks)` of its
own local list (or a local counter), and `parse_jsonl` concatenates the
per-document lists, so `chunk_index` restarts at 0 for every document of
the invocation rather than increasing across the whole invocation. -/

/-- C4 counterexample: one file with two copies of the two-page document
emits chunk indices `0, 1, 0, 1` in one invocation — not monotonically
increasing from 0 across the emitted sequence. -/
theorem c4_counterexample :
    (parseJsonl cfgPage initState (some [[.doc docX, .doc docX]])).map
      (fun r => r.2.map (fun c => c.chunk_index)) = some [0, 1, 0, 1] ∧
    ¬ List.Chain' (· < ·) [0, 1, 0, 1] := by
  refine ⟨by decide, ?_⟩
  simp [List.chain'_cons]

theorem chunkByPageGo_index (cfg : Config) (text : List Char) (md : Metadata)
    (attrs : Attributes) :
    ∀ (bs : List (Int × Int × Int)) (i : Nat) (acc : List Chunk),
      acc.map (fun c => c.chunk_index) = List.range acc.length →
      (chunkByPageGo cfg text md attrs i bs acc).map (fun c => c.chunk_index) =
        List.range (chunkByPageGo cfg text md attrs i bs acc).length := by
  intro bs
  induction bs with
  | nil => intro i acc hacc; simpa only [chunkByPageGo] using hacc
  | cons hd rest ih =>
    obtain ⟨s, e, pnum⟩ := hd
    intro i acc hacc
    simp only [chunkByPageGo]
    split_ifs
    · exact ih _ _ hacc
    · exact ih _ _ hacc
    · exact ih _ _ hacc
    · exact ih _ _ hacc
    · refine ih _ _ ?_
      simp only [List.map_append, List.length_append, List.map_cons, List.map_nil,
        List.length_cons, List.length_nil, hacc]
      simp [List.range_succ]

theorem chunkSemanticParas_index (cfg : Config) (md : Metadata) (lang : PyStr)
    (tab dia : Bool) (pnum : Int) :
    ∀ (ps : List (List Char)) (pidx : Nat) (acc : List Chunk),
      acc.map (fun c => c.chunk_index) = List.range acc.length →
      (chunkSemanticParas cfg md lang tab dia pnum pidx ps acc).map
          (fun c => c.chunk_index) =
        List.range (chunkSemanticParas cfg md lang tab dia pnum pidx ps acc).length := by
  intro ps
  induction ps with
  | nil => intro pidx acc hacc; simpa only [chunkSemanticParas] using hacc
  | cons p ps ih =>
    intro pidx acc hacc
    simp only [chunkSemanticParas]
    split_ifs
    · exact ih _ _ hacc
    · refine ih _ _ ?_
      simp only [List.map_append, List.length_append, List.map_cons, List.map_nil,
        List.length_cons, List.length_nil, hacc]
      simp [List.range_succ]

theorem chunkSemanticGo_index (cfg : Config) (text : List Char) (md : Metadata)
    (attrs : Attributes) :
    ∀ (bs : List (Int × Int × Int)) (i : Nat) (acc : List Chunk),
      acc.map (fun c => c.chunk_index) = List.range acc.length →
      (chunkSemanticGo cfg text md attrs i bs acc).map (fun c => c.chunk_index) =
        List.range (chunkSemanticGo cfg text md attrs i bs acc).length := by
  intro bs
  induction bs with
  | nil => intro i acc hacc; simpa only [chunkSemanticGo] using hacc
  | cons hd rest ih =>
    obtain ⟨s, e, pnum⟩ := hd
    intro i acc hacc
    simp only [chunkSemanticGo]
    split_ifs
    · exact ih _ _ hacc
    · exact ih _ _ hacc
    · exact ih _ _ hacc
    · exact ih _ _ (chunkSemanticParas_index cfg md _ _ _ _ _ _ _ hacc)

theorem fixedGo_index (cfg : Config) (text : List Char)
    (bs : List (Int × Int × Int)) (md : Metadata) (attrs : Attributes) :
    ∀ (fuel : Nat) (pos : Int) (ci : Nat) (acc cs : List Chunk),
      ci = acc.length →
      acc.map (fun c => c.chunk_index) = List.range acc.length →
      fixedGo cfg text bs md attrs fuel pos ci acc = some cs →
      cs.map (fun c => c.chunk_index) = List.range cs.length := by
  intro fuel
  induction fuel with
  | zero => intro pos ci acc cs _ _ h; exact absurd h (by simp [fixedGo])
  | succ n ih =>
    intro pos ci acc cs hci hacc hrun
    simp only [fixedGo] at hrun
    split at hrun
    · split at hrun
      · exact ih _ _ _ _ hci hacc hrun
      · split at hrun
        · exact ih _ _ _ _ hci hacc hrun
        · split at hrun
          · exact ih _ _ _ _ hci hacc hrun
          · split at hrun
            · exact ih _ _ _ _ hci hacc hrun
            · refine ih _ _ _ _ ?_ ?_ hrun
              · simp [hci]
              · simp only [List.map_append, List.length_append, List.map_cons,
                  List.map_nil, List.length_cons, List.length_nil, hacc, hci]
                simp [List.range_succ]
    · rcases Option.some_injective _ hrun with rfl
      exact hacc

/-- C4 amended: `chunk_index` is assigned in emission order and increases
monotonically from 0 within each *document* — equal to the position in the
document's emitted chunk list — and restarts at 0 for every document of an
invocation (so across a multi-document invocation the concatenated
sequence is not monotonically increasing). -/
theorem c4_chunk_index_per_document (cfg : Config) (d : Document) (cs : List Chunk)
    (h : chunkDoc cfg d = some cs) :
    cs.map (fun c => c.chunk_index) = List.range cs.length := by
  unfold chunkDoc at h
  split_ifs at h
  · rcases Option.some_injective _ h with rfl
    exact chunkByPageGo_index cfg d.text d.metadata d.attributes _ 0 [] rfl
  · exact fixedGo_index cfg d.text _ d.metadata d.attributes _ 0 0 [] cs rfl rfl h
  · rcases Option.some_injective _ h with rfl
    exact chunkSemanticGo_index cfg d.text d.metadata d.attributes _ 0 [] rfl
  · rcases Option.some_injective _ h with rfl
    exact chunkByPageGo_index cfg d.text d.metadata d.attributes _ 0 [] rfl

/-- C4 witness: per-document indices of the concrete document are `0, 1`. -/
theorem c4_witness :
    (chunkByPage cfgPage docX.text docX.attributes.pdf_page_numbers
        docX.metadata docX.attributes).map (fun c => c.chunk_index) =
      List.range (chunkByPage cfgPage docX.text docX.attributes.pdf_page_numbers
        docX.metadata docX.attributes).length :=
  c4_chunk_index_per_document cfgPage docX _ (by decide)

/-! Claim C5.  The semantic strategy list-comprehension strips each split
piece (`p.strip()`), so a page with no blank-line boundary yields one
chunk whose text is the *stripped* page text, not the raw slice
`text[start:end]`; the raw slice is the chunk text only in the fallback
case where the page is entirely whitespace. -/

/-- Semantic-strategy configuration with no filters and a floor of 1. -/
def cfgSem : Config := ⟨"semantic".data, 1000, 200, [], true, true, 1, 0, "w".data⟩

/-- A single-page attribute set for a three-character page. -/
def attrsS : Attributes := ⟨[(0, 3, 1)], ["en".data], [false], [false]⟩

/-- C5 counterexample: the page text `"aa "` has no blank-line boundary,
yet the single semantic chunk's text is `"aa"`, not the whole page text
`text[0:3] = "aa "`. -/
theorem c5_counterexample :
    (chunkSemantic cfgSem "aa ".data [(0, 3, 1)] mdX attrsS).map (fun c => c.text) =
      ["aa".data] ∧
    pySlice "aa ".data 0 3 = "aa ".data ∧ "aa".data ≠ "aa ".data := by
  decide

/-- C5 amended: for an unfiltered single page whose text has no
blank-line boundary, exactly one chunk candidate is produced; its text is
the whitespace-stripped page text (the raw page text when the page is
entirely whitespace), and it is kept exactly when it clears the
`min_chars_per_chunk` floor. -/
theorem c5_semantic_no_blank_line (cfg : Config) (text : List Char) (s e pnum : Int)
    (md : Metadata) (attrs : Attributes)
    (hnn : hasNN (pySlice text s e) = false)
    (h1 : ¬(parseLanguageFilter cfg.language_filter ≠ [] ∧
        pageLanguage attrs 0 ∉ parseLanguageFilter cfg.language_filter))
    (h2 : ¬(cfg.include_tables = false ∧ pageIsTable attrs 0 = true))
    (h3 : ¬(cfg.include_diagrams = false ∧ pageIsDiagram attrs 0 = true)) :
    chunkSemantic cfg text [(s, e, pnum)] md attrs =
      (if ((if pyStrip (pySlice text s e) = [] then pySlice text s e
            else pyStrip (pySlice text s e)).length : Int) < cfg.min_chars_per_chunk
       then []
       else [{ source_file := md.source_file, page_number := pnum,
               total_pages := md.total_pages, language := pageLanguage attrs 0,
               has_table := pageIsTable attrs 0, has_diagram := pageIsDiagram attrs 0,
               char_start := none, char_end := none,
               char_count := ((if pyStrip (pySlice text s e) = [] then pySlice text s e
                 else pyStrip (pySlice text s e)).length : Int),
               chunk_index := 0, paragraph_index := some 0,
               chunking_strategy := "semantic".data,
               olmocr_version := md.olmocr_version,
               text := if pyStrip (pySlice text s e) = [] then pySlice text s e
                 else pyStrip (pySlice text s e) }]) := by
  have hsplit := splitNN_of_not_hasNN _ hnn
  simp only [chunkSemantic, chunkSemanticGo, if_neg h1, if_neg h2, if_neg h3]
  simp only [semanticParagraphs, hsplit, List.filterMap_cons, List.filterMap_nil]
  by_cases hstrip : pyStrip (pySlice text s e) = []
  · simp only [hstrip, if_pos rfl, ite_true, chunkSemanticParas]
    split_ifs <;> simp [chunkSemanticParas]
  · simp only [if_neg hstrip, chunkSemanticParas]
    split_ifs <;> simp [chunkSemanticParas]

/-- C5 witness: the amended theorem evaluated on the concrete page. -/
theorem c5_witness :
    chunkSemantic cfgSem "aa ".data [(0, 3, 1)] mdX attrsS =
      (if ((if pyStrip (pySlice "aa ".data 0 3) = [] then pySlice "aa ".data 0 3
            else pyStrip (pySlice "aa ".data 0 3)).length : Int) <
          cfgSem.min_chars_per_chunk
       then []
       else [{ source_file := mdX.source_file, page_number := 1,
               total_pages := mdX.total_pages, language := pageLanguage attrsS 0,
               has_table := pageIsTable attrsS 0, has_diagram := pageIsDiagram attrsS 0,
               char_start := none, char_end := none,
               char_count := ((if pyStrip (pySlice "aa ".data 0 3) = []
                 then pySlice "aa ".data 0 3
                 else pyStrip (pySlice "aa ".data 0 3)).length : Int),
               chunk_index := 0, paragraph_index := some 0,
               chunking_strategy := "semantic".data,
               olmocr_version := mdX.olmocr_version,
               text := if pyStrip (pySlice "aa ".data 0 3) = [] then pySlice "aa ".data 0 3
                 else pyStrip (pySlice "aa ".data 0 3) }]) :=
  c5_semantic_no_blank_line cfgSem "aa ".data 0 3 1 mdX attrsS
    (by decide) (by decide) (by decide) (by decide)

/-! Claim C7.  With `include_tables = false` both the page and the
semantic strategies skip every page whose `is_table` attribute is true
before emitting anything, and every emitted chunk carries its page's
flag, so no emitted chunk has `has_table = true`. -/

theorem chunkByPageGo_no_table (cfg : Config) (text : List Char) (md : Metadata)
    (attrs : Attributes) (h : cfg.include_tables = false) :
    ∀ (bs : List (Int × Int × Int)) (i : Nat) (acc : List Chunk),
      (∀ c ∈ acc, c.has_table = false) →
      ∀ c ∈ chunkByPageGo cfg text md attrs i bs acc, c.has_table = false := by
  intro bs
  induction bs with
  | nil => intro i acc hacc; simpa only [chunkByPageGo] using hacc
  | cons hd rest ih =>
    obtain ⟨s, e, pnum⟩ := hd
    intro i acc hacc c hc
    simp only [chunkByPageGo] at hc
    split at hc
    · exact ih _ _ hacc c hc
    · split at hc
      · exact ih _ _ hacc c hc
      · rename_i htab
        split at hc
        · exact ih _ _ hacc c hc
        · split at hc
          · exact ih _ _ hacc c hc
          · refine ih _ _ ?_ c hc
            intro c2 hc2
            rcases List.mem_append.mp hc2 with hm | hm
            · exact hacc c2 hm
            · rcases List.mem_singleton.mp hm with rfl
              show pageIsTable attrs i = false
              rcases Bool.eq_false_or_eq_true (pageIsTable attrs i) with hb | hb
              · exact absurd ⟨h, hb⟩ htab
              · exact hb

theorem chunkSemanticParas_no_table (cfg : Config) (md : Metadata) (lang : PyStr)
    (tab dia : Bool) (pnum : Int) (htab : tab = false) :
    ∀ (ps : List (List Char)) (pidx : Nat) (acc : List Chunk),
      (∀ c ∈ acc, c.has_table = false) →
      ∀ c ∈ chunkSemanticParas cfg md lang tab dia pnum pidx ps acc,
        c.has_table = false := by
  intro ps
  induction ps with
  | nil => intro pidx acc hacc; simpa only [chunkSemanticParas] using hacc
  | cons p ps ih =>
    intro pidx acc hacc c hc
    simp only [chunkSemanticParas] at hc
    split at hc
    · exact ih _ _ hacc c hc
    · refine ih _ _ ?_ c hc
      intro c2 hc2
      rcases List.mem_append.mp hc2 with hm | hm
      · exact hacc c2 hm
      · rcases List.mem_singleton.mp hm with rfl
        exact htab

theorem chunkSemanticGo_no_table (cfg : Config) (text : List Char) (md : Metadata)
    (attrs : Attributes) (h : cfg.include_tables = false) :
    ∀ (bs : List (Int × Int × Int)) (i : Nat) (acc : List Chunk),
      (∀ c ∈ acc, c.has_table = false) →
      ∀ c ∈ chunkSemanticGo cfg text md attrs i bs acc, c.has_table = false := by
  intro bs
  induction bs with
  | nil => intro i acc hacc; simpa only [chunkSemanticGo] using hacc
  | cons hd rest ih =>
    obtain ⟨s, e, pnum⟩ := hd
    intro i acc hacc c hc
    simp only [chunkSemanticGo] at hc
    split at hc
    · exact ih _ _ hacc c hc
    · split at hc
      · exact ih _ _ hacc c hc
      · rename_i htab
        split at hc
        · exact ih _ _ hacc c hc
        · refine ih _ _ ?_ c hc
          have : pageIsTable attrs i = false := by
            rcases Bool.eq_false_or_eq_true (pageIsTable attrs i) with hb | hb
            · exact absurd ⟨h, hb⟩ htab
            · exact hb
          exact chunkSemanticParas_no_table cfg md _ _ _ _ this _ _ _ hacc

/-- C7: with `include_tables = false`, no chunk emitted by the page or
semantic strategy has `has_table = true` — every emitted chunk carries
`has_table = false`, so no chunk of a page flagged `has_table = true`
ever appears in their output. -/
theorem c7_no_table_chunks (cfg : Config) (text : List Char)
    (bs : List (Int × Int × Int)) (md : Metadata) (attrs : Attributes)
    (h : cfg.include_tables = false) :
    (∀ c ∈ chunkByPage cfg text bs md attrs, c.has_table = false) ∧
    (∀ c ∈ chunkSemantic cfg text bs md attrs, c.has_table = false) :=
  ⟨chunkByPageGo_no_table cfg text md attrs h bs 0 [] (by intro c hc; cases hc),
   chunkSemanticGo_no_table cfg text md attrs h bs 0 [] (by intro c hc; cases hc)⟩

/-- Page-strategy configuration excluding tables. -/
def cfgNoTables : Config := ⟨"page".data, 1000, 200, [], false, true, 1, 0, "w".data⟩

/-- A document whose second page contains a table. -/
def attrsTab : Attributes :=
  ⟨[(0, 2, 1), (2, 4, 2)], ["en".data, "en".data], [false, true], [false, false]⟩

/-- C7 witness: the filter evaluated on the first emitted chunk of a
document with a flagged page, for both strategies. -/
theorem c7_witness :
    Chunk.has_table
      ((chunkByPage cfgNoTables "aabb".data [(0, 2, 1), (2, 4, 2)] mdX attrsTab).headI) =
      false ∧
    Chunk.has_table
      ((chunkSemantic cfgNoTables "aabb".data [(0, 2, 1), (2, 4, 2)] mdX attrsTab).headI) =
      false :=
  ⟨(c7_no_table_chunks cfgNoTables "aabb".data [(0, 2, 1), (2, 4, 2)] mdX attrsTab
      rfl).1
    ((chunkByPage cfgNoTables "aabb".data [(0, 2, 1), (2, 4, 2)] mdX attrsTab).headI)
    (by decide),
   (c7_no_table_chunks cfgNoTables "aabb".data [(0, 2, 1), (2, 4, 2)] mdX attrsTab
      rfl).2
    ((chunkSemantic cfgNoTables "aabb".data [(0, 2, 1), (2, 4, 2)] mdX attrsTab).headI)
    (by decide)⟩

/-! Claim C9.  `parse_jsonl` reads none of the component's mutable fields
(`_chunks`, `_stats`, `status`), it only writes them, so the chunk output
is a function of the configuration and the input alone and a repeated
parse of the same input yields the same chunk sequence. -/

theorem parseJsonl_output_state_independent (cfg : Config)
    (input : Option (List (List Line))) (st st2 : ParserState) :
    (parseJsonl cfg st input).map Prod.snd = (parseJsonl cfg st2 input).map Prod.snd := by
  cases input with
  | none => by_cases hws : pyStrip cfg.workspace_path = [] <;> simp [parseJsonl, hws]
  | some files =>
    by_cases hws : pyStrip cfg.workspace_path = []
    · simp [parseJsonl, hws]
    · by_cases hf : files = []
      · simp [parseJsonl, hws, hf]
      · cases hp : processFiles cfg files with
        | none => simp [parseJsonl, hws, hf, hp]
        | some r => simp [parseJsonl, hws, hf, hp]

/-- C9: parsing the same input with the same configuration twice — the
second run starting from whatever state the first run left behind —
yields the same chunk sequence. -/
theorem c9_deterministic (cfg : Config) (input : Option (List (List Line)))
    (st st1 st2 : ParserState) (cs1 cs2 : List Chunk)
    (h1 : parseJsonl cfg st input = some (st1, cs1))
    (h2 : parseJsonl cfg st1 input = some (st2, cs2)) : cs2 = cs1 := by
  have h := parseJsonl_output_state_independent cfg input st1 st
  rw [h1, h2] at h
  simpa using h

/-- The chunk list the page strategy emits for `docX`. -/
def csX : List Chunk :=
  chunkByPage cfgPage docX.text docX.attributes.pdf_page_numbers docX.metadata docX.attributes

/-- The component state after a successful parse of one file holding
`docX`. -/
def stX : ParserState := ⟨some csX, some ⟨2, 1, 1, "page".data, "w".data⟩, csX⟩

/-- C9 witness: a concrete double parse of the same input, the second one
started from the mutated state, yields the same chunks. -/
theorem c9_witness : csX = csX :=
  c9_deterministic cfgPage (some [[Line.doc docX]]) initState stX stX csX csX
    (by decide) (by decide)

/-! Claim C8.  `parse_jsonl` never raises (every exception is caught and
turned into an empty result), but the statistics dictionary `_stats` is
only built when at least one JSONL file is found: for a missing
workspace, a missing results directory or an empty file list the
early-return paths set `status = []` and return `[]` without producing
any statistics, so "empty or missing input yields statistics with
documents processed = 0" holds only for the empty case, not the missing
one. -/

/-- C8 counterexample: parsing with missing input returns an empty chunk
list but leaves the statistics unset — no statistics record with
`documents_processed = 0` is produced, contrary to the claim that the
operation always returns statistics with those counts. -/
theorem c8_counterexample :
    parseJsonl cfgPage initState none = some (initState, []) ∧
    initState.stats = none := by
  decide

theorem processFiles_replicate_nil (cfg : Config) :
    ∀ k : Nat, processFiles cfg (List.replicate k []) = some ([], 0) := by
  intro k
  induction k with
  | zero => rfl
  | succ n ih => simp [List.replicate_succ, processFiles, processFile, ih]

/-- C8 amended: no error is ever raised; when at least one JSONL file is
found but all files are empty, the result is an empty chunk list together
with statistics reporting 0 documents processed, 0 chunks and the file
count; when the input is missing (no workspace, no results directory or
no JSONL files) the result is an empty chunk list with `status = []` and
no statistics are produced. -/
theorem c8_stats_behavior (cfg : Config) (st : ParserState) (k : Nat)
    (hws : pyStrip cfg.workspace_path ≠ []) (hk : k ≠ 0) :
    parseJsonl cfg st (some (List.replicate k [])) =
      some (⟨some [], some ⟨0, 0, k, cfg.chunking_strategy, cfg.workspace_path⟩, []⟩, []) ∧
    parseJsonl cfg st none = some ({ st with status := [] }, []) := by
  constructor
  · have hne : List.replicate k ([] : List Line) ≠ [] := by
      simp [List.replicate_eq_nil_iff, hk]
    unfold parseJsonl
    rw [if_neg hws]
    simp only [if_neg hne, processFiles_replicate_nil]
    rw [if_neg (by simp only [List.length_nil, Nat.cast_zero]; omega :
      ¬(cfg.max_chunks > 0 ∧ ((([] : List Chunk).length : Int)) > cfg.max_chunks))]
    simp [List.length_replicate]
  · unfold parseJsonl
    rw [if_neg hws]

/-- C8 witness: the amended behavior at two concrete empty files and at
missing input. -/
theorem c8_witness :
    parseJsonl cfgPage initState (some (List.replicate 2 [])) =
      some (⟨some [], some ⟨0, 0, 2, cfgPage.chunking_strategy, cfgPage.workspace_path⟩,
        []⟩, []) ∧
    parseJsonl cfgPage initState none = some ({ initState with status := [] }, []) :=
  c8_stats_behavior cfgPage initState 2 (by decide) (by decide)

/-! Claim C10.  `_chunk_by_fixed_size` looks window metadata up with
`char_to_page.get(pos, defaults)`: a window whose start position is not
covered by any page boundary gets page 0, language "unknown", no table,
no diagram; with a non-empty language filter not containing "unknown"
such a window is always skipped, so every emitted chunk starts inside
some page boundary. -/

theorem charToPageGo_eq_none (attrs : Attributes) (pos : Int) :
    ∀ (bs : List (Int × Int × Int)) (i : Nat),
      (∀ t ∈ bs, ¬(t.1 ≤ pos ∧ pos < t.2.1)) →
      charToPageGo attrs i bs pos = none := by
  intro bs
  induction bs with
  | nil => intro i _; rfl
  | cons hd rest ih =>
    obtain ⟨s, e, p⟩ := hd
    intro i h
    have hrest := ih (i + 1) (fun t ht => h t (List.mem_cons_of_mem _ ht))
    have hhd := h (s, e, p) (List.mem_cons_self _ _)
    simp only [charToPageGo, hrest, if_neg hhd]

theorem charToPageGo_some_mem (attrs : Attributes) (pos : Int) :
    ∀ (bs : List (Int × Int × Int)) (i : Nat) (m : PageMeta),
      charToPageGo attrs i bs pos = some m →
      ∃ t ∈ bs, t.1 ≤ pos ∧ pos < t.2.1 := by
  intro bs
  induction bs with
  | nil => intro i m h; exact absurd h (by simp [charToPageGo])
  | cons hd rest ih =>
    obtain ⟨s, e, p⟩ := hd
    intro i m h
    simp only [charToPageGo] at h
    cases hr : charToPageGo attrs (i + 1) rest pos with
    | some m2 =>
      obtain ⟨t, ht, hc⟩ := ih (i + 1) m2 hr
      exact ⟨t, List.mem_cons_of_mem _ ht, hc⟩
    | none =>
      rw [hr] at h
      by_cases hcond : s ≤ pos ∧ pos < e
      · exact ⟨(s, e, p), List.mem_cons_self _ _, hcond⟩
      · rw [if_neg hcond] at h
        cases h

theorem fixedGo_start_covered (cfg : Config) (text : List Char)
    (bs : List (Int × Int × Int)) (md : Metadata) (attrs : Attributes)
    (hf : parseLanguageFilter cfg.language_filter ≠ [])
    (hu : "unknown".data ∉ parseLanguageFilter cfg.language_filter) :
    ∀ (fuel : Nat) (pos : Int) (ci : Nat) (acc cs : List Chunk),
      (∀ c ∈ acc, ∃ t ∈ bs, ∃ q : Int, c.char_start = some q ∧ t.1 ≤ q ∧ q < t.2.1) →
      fixedGo cfg text bs md attrs fuel pos ci acc = some cs →
      ∀ c ∈ cs, ∃ t ∈ bs, ∃ q : Int, c.char_start = some q ∧ t.1 ≤ q ∧ q < t.2.1 := by
  intro fuel
  induction fuel with
  | zero => intro pos ci acc cs _ h; exact absurd h (by simp [fixedGo])
  | succ n ih =>
    intro pos ci acc cs hacc hrun c hc
    simp only [fixedGo] at hrun
    split at hrun
    · split at hrun
      · exact ih _ _ _ _ hacc hrun c hc
      · rename_i hlang
        split at hrun
        · exact ih _ _ _ _ hacc hrun c hc
        · split at hrun
          · exact ih _ _ _ _ hacc hrun c hc
          · split at hrun
            · exact ih _ _ _ _ hacc hrun c hc
            · refine ih _ _ _ _ ?_ hrun c hc
              intro c2 hc2
              rcases List.mem_append.mp hc2 with hm | hm
              · exact hacc c2 hm
              · rcases List.mem_singleton.mp hm with rfl
                have hmem : (windowMeta bs attrs pos).language ∈
                    parseLanguageFilter cfg.language_filter := by
                  rcases not_and_or.mp hlang with h | h
                  · exact absurd hf (by simpa using h)
                  · exact not_not.mp h
                cases hcp : charToPage bs attrs pos with
                | none =>
                  have : windowMeta bs attrs pos = ⟨0, "unknown".data, false, false⟩ := by
                    simp [windowMeta, hcp]
                  rw [this] at hmem
                  exact absurd hmem hu
                | some m =>
                  obtain ⟨t, ht, hcov⟩ := charToPageGo_some_mem attrs pos bs 0 m hcp
                  exact ⟨t, ht, pos, rfl, hcov⟩
    · rcases Option.some_injective _ hrun with rfl
      exact hacc c hc

/-- C10: a fixed-size window whose start offset is not contained in any
page boundary gets the default metadata (page 0, language "unknown", no
table, no diagram); consequently, when a non-empty language filter not
containing "unknown" is configured, every chunk the fixed-size loop emits
starts inside some page boundary — the uncovered windows are all
dropped. -/
theorem c10_uncovered_window_default_meta (cfg : Config) (text : List Char)
    (bs : List (Int × Int × Int)) (md : Metadata) (attrs : Attributes)
    (hf : parseLanguageFilter cfg.language_filter ≠ [])
    (hu : "unknown".data ∉ parseLanguageFilter cfg.language_filter) :
    (∀ pos : Int, (∀ t ∈ bs, ¬(t.1 ≤ pos ∧ pos < t.2.1)) →
      windowMeta bs attrs pos = ⟨0, "unknown".data, false, false⟩) ∧
    (∀ (fuel : Nat) (pos : Int) (ci : Nat) (cs : List Chunk),
      fixedGo cfg text bs md attrs fuel pos ci [] = some cs →
      ∀ c ∈ cs, ∃ t ∈ bs, ∃ q : Int, c.char_start = some q ∧ t.1 ≤ q ∧ q < t.2.1) := by
  constructor
  · intro pos hpos
    simp [windowMeta, charToPage, charToPageGo_eq_none attrs pos bs 0 hpos]
  · intro fuel pos ci cs hrun
    exact fixedGo_start_covered cfg text bs md attrs hf hu fuel pos ci [] cs
      (by intro c hc; cases hc) hrun

/-- Fixed-size configuration with an `en` language filter. -/
def cfgLangFixed : Config := ⟨"fixed_size".data, 2, 0, "en".data, true, true, 1, 0, "w".data⟩

/-- C10 witness: the theorem evaluated at a concrete filtered
configuration — the uncovered position 10 gets the default metadata, and
the first chunk of a concrete terminating run starts inside a boundary. -/
theorem c10_witness :
    windowMeta [(0, 2, 1), (2, 4, 2)] attrsX 10 = ⟨0, "unknown".data, false, false⟩ ∧
    ∃ t ∈ [((0 : Int), (2 : Int), (1 : Int)), (2, 4, 2)], ∃ q : Int,
      (((fixedGo cfgLangFixed "aabb".data [(0, 2, 1), (2, 4, 2)] mdX attrsX 5 0 0
          []).getD []).headI).char_start = some q ∧ t.1 ≤ q ∧ q < t.2.1 :=
  ⟨(c10_uncovered_window_default_meta cfgLangFixed "aabb".data [(0, 2, 1), (2, 4, 2)]
      mdX attrsX (by decide) (by decide)).1 10 (by decide),
   (c10_uncovered_window_default_meta cfgLangFixed "aabb".data [(0, 2, 1), (2, 4, 2)]
      mdX attrsX (by decide) (by decide)).2 5 0 0
    ((fixedGo cfgLangFixed "aabb".data [(0, 2, 1), (2, 4, 2)] mdX attrsX 5 0 0 []).getD [])
    (by decide)
    (((fixedGo cfgLangFixed "aabb".data [(0, 2, 1), (2, 4, 2)] mdX attrsX 5 0 0
      []).getD []).headI)
    (by decide)⟩

/-! Claim C6.  The fixed-size walk over a 2500-character text with
`chunk_size = 1000`, `chunk_overlap = 200` visits positions 0, 800, 1600,
2400 (step 800); the candidate windows have lengths 1000, 1000, 900, 100,
and each is kept exactly when its length clears `min_chars_per_chunk` —
in particular the final window at 2400 has length 100 and is dropped
exactly when the floor exceeds 100. -/

/-- A terminating fixed-size run is unchanged by extra fuel. -/
theorem fixedGo_mono (cfg : Config) (text : List Char) (bs : List (Int × Int × Int))
    (md : Metadata) (attrs : Attributes) :
    ∀ (fuel fuel2 : Nat) (pos : Int) (ci : Nat) (acc r : List Chunk), fuel ≤ fuel2 →
      fixedGo cfg text bs md attrs fuel pos ci acc = some r →
      fixedGo cfg text bs md attrs fuel2 pos ci acc = some r := by
  intro fuel
  induction fuel with
  | zero => intro fuel2 pos ci acc r _ h; exact absurd h (by simp [fixedGo])
  | succ n ih =>
    intro fuel2 pos ci acc r hle h
    cases fuel2 with
    | zero => omega
    | succ n2 =>
      have hle2 : n ≤ n2 := by omega
      simp only [fixedGo] at h ⊢
      split_ifs at h ⊢ <;> first
        | exact ih _ _ _ _ _ hle2 h
        | exact h

/-- The C6 configuration: fixed-size, `chunk_size = 1000`,
`chunk_overlap = 200`, no filters, floor `m`. -/
def cfg6 (m : Int) : Config := ⟨"fixed_size".data, 1000, 200, [], true, true, m, 0, "w".data⟩

/-- The C6 text: 2500 characters. -/
def text6 : List Char := List.replicate 2500 'a'

/-- One page covering the whole C6 text. -/
def bs6 : List (Int × Int × Int) := [(0, 2500, 1)]

def attrs6 : Attributes := ⟨bs6, ["en".data], [false], [false]⟩

/-- The chunk the C6 run emits for the window `[st, en)`. -/
def c6chunk (st en : Int) (cnt ci : Nat) : Chunk :=
  ⟨mdX.source_file, 1, mdX.total_pages, "en".data, false, false, some st, some en,
    (cnt : Int), ci, none, "fixed_size".data, mdX.olmocr_version, List.replicate cnt 'a'⟩

theorem c6_run_low (m : Int) (hm : m ≤ 100) :
    fixedGo (cfg6 m) text6 bs6 mdX attrs6 5 0 0 [] =
      some [c6chunk 0 1000 1000 0, c6chunk 800 1800 1000 1,
            c6chunk 1600 2500 900 2, c6chunk 2400 2500 100 3] := by
  have h1000 : ¬((1000 : Int) < m) := by omega
  have h900 : ¬((900 : Int) < m) := by omega
  have h100 : ¬((100 : Int) < m) := by omega
  norm_num [fixedGo, cfg6, text6, bs6, attrs6, mdX, windowMeta, charToPage, charToPageGo,
    parseLanguageFilter, pyStrip, pySlice, pageLanguage, pageIsTable, pageIsDiagram,
    isPySpace, List.take_replicate, List.drop_replicate, h1000, h900, h100, c6chunk]
  omega

theorem c6_run_mid (m : Int) (hm1 : 100 < m) (hm2 : m ≤ 900) :
    fixedGo (cfg6 m) text6 bs6 mdX attrs6 5 0 0 [] =
      some [c6chunk 0 1000 1000 0, c6chunk 800 1800 1000 1, c6chunk 1600 2500 900 2] := by
  have h1000 : ¬((1000 : Int) < m) := by omega
  have h900 : ¬((900 : Int) < m) := by omega
  have h100 : ((100 : Int) < m) := by omega
  norm_num [fixedGo, cfg6, text6, bs6, attrs6, mdX, windowMeta, charToPage, charToPageGo,
    parseLanguageFilter, pyStrip, pySlice, pageLanguage, pageIsTable, pageIsDiagram,
    isPySpace, List.take_replicate, List.drop_replicate, h1000, h900, h100, c6chunk]
  omega

theorem c6_run_midhigh (m : Int) (hm1 : 900 < m) (hm2 : m ≤ 1000) :
    fixedGo (cfg6 m) text6 bs6 mdX attrs6 5 0 0 [] =
      some [c6chunk 0 1000 1000 0, c6chunk 800 1800 1000 1] := by
  have h1000 : ¬((1000 : Int) < m) := by omega
  have h900 : ((900 : Int) < m) := by omega
  have h100 : ((100 : Int) < m) := by omega
  norm_num [fixedGo, cfg6, text6, bs6, attrs6, mdX, windowMeta, charToPage, charToPageGo,
    parseLanguageFilter, pyStrip, pySlice, pageLanguage, pageIsTable, pageIsDiagram,
    isPySpace, List.take_replicate, List.drop_replicate, h1000, h900, h100, c6chunk]
  omega

theorem c6_run_high (m : Int) (hm1 : 1000 < m) :
    fixedGo (cfg6 m) text6 bs6 mdX attrs6 5 0 0 [] = some [] := by
  have h1000 : ((1000 : Int) < m) := by omega
  have h900 : ((900 : Int) < m) := by omega
  have h100 : ((100 : Int) < m) := by omega
  norm_num [fixedGo, cfg6, text6, bs6, attrs6, mdX, windowMeta, charToPage, charToPageGo,
    parseLanguageFilter, pyStrip, pySlice, pageLanguage, pageIsTable, pageIsDiagram,
    isPySpace, List.take_replicate, List.drop_replicate, h1000, h900, h100, c6chunk]

/-- C6: with `chunk_size = 1000`, `chunk_overlap = 200`, no filters on a
2500-character one-page text, the emitted chunks start at offsets 0, 800,
1600, 2400 for any floor of at most 100, the window at 2400 has length
100 and appears exactly when the floor is at most 100, and in general the
kept start offsets are fully characterised by the floor (windows of
lengths 1000, 1000, 900, 100 filtered by the floor). -/
theorem c6_fixed_size_offsets (m : Int) :
    (chunkByFixedSize (cfg6 m) text6 bs6 mdX attrs6).map
        (List.map (fun c => c.char_start)) =
      some (if m ≤ 100 then [some 0, some 800, some 1600, some 2400]
        else if m ≤ 900 then [some 0, some 800, some 1600]
        else if m ≤ 1000 then [some 0, some 800]
        else []) ∧
    (m ≤ 100 →
      (chunkByFixedSize (cfg6 m) text6 bs6 mdX attrs6).map
          (List.map (fun c => c.char_count)) = some [1000, 1000, 900, 100]) := by
  have hfuel : (5 : Nat) ≤ text6.length + 1 := by
    simp only [text6, List.length_replicate]
    omega
  by_cases hm : m ≤ 100
  · have hrun := fixedGo_mono (cfg6 m) text6 bs6 mdX attrs6 5 (text6.length + 1)
      0 0 [] _ hfuel (c6_run_low m hm)
    rw [chunkByFixedSize, hrun]
    exact ⟨by simp only [if_pos hm]; rfl, fun _ => rfl⟩
  · by_cases hm2 : m ≤ 900
    · have hrun := fixedGo_mono (cfg6 m) text6 bs6 mdX attrs6 5 (text6.length + 1)
        0 0 [] _ hfuel (c6_run_mid m (by omega) hm2)
      rw [chunkByFixedSize, hrun]
      exact ⟨by simp only [if_neg hm, if_pos hm2]; rfl, fun h => absurd h hm⟩
    · by_cases hm3 : m ≤ 1000
      · have hrun := fixedGo_mono (cfg6 m) text6 bs6 mdX attrs6 5 (text6.length + 1)
          0 0 [] _ hfuel (c6_run_midhigh m (by omega) hm3)
        rw [chunkByFixedSize, hrun]
        exact ⟨by simp only [if_neg hm, if_neg hm2, if_pos hm3]; rfl, fun h => absurd h hm⟩
      · have hrun := fixedGo_mono (cfg6 m) text6 bs6 mdX attrs6 5 (text6.length + 1)
          0 0 [] _ hfuel (c6_run_high m (by omega))
        rw [chunkByFixedSize, hrun]
        exact ⟨by simp only [if_neg hm, if_neg hm2, if_neg hm3]; rfl, fun h => absurd h hm⟩

/-- C6 witness: window lengths of the run with floor 0. -/
theorem c6_witness :
    (chunkByFixedSize (cfg6 0) text6 bs6 mdX attrs6).map
        (List.map (fun c => c.char_count)) = some [1000, 1000, 900, 100] :=
  (c6_fixed_size_offsets 0).2 (by norm_num)

end OlmOCR
